import Mathlib

/-!
Shallow embedding of the popularity-tail metric code
(`recbole/evaluator/metrics_custom.py`) and of the group-summary logging code
(`recbole/utils/wandblogger.py`).

Item identifiers and interaction counts are natural numbers; the configured
mass threshold and all derived quantities are exact rationals.  A popularity
table (`dict` of item to count) is a list of pairs whose keys are distinct.
-/

/-- Comparison key used by `sorted(count_items.items(), key=lambda x: (x[1], x[0]))`:
count first, item identifier as tie-break, both ascending. -/
def keyLe (a b : ℕ × ℕ) : Prop :=
  a.2 < b.2 ∨ (a.2 = b.2 ∧ a.1 ≤ b.1)

instance : DecidableRel keyLe :=
  fun a b => inferInstanceAs (Decidable (a.2 < b.2 ∨ (a.2 = b.2 ∧ a.1 ≤ b.1)))

instance : IsTotal (ℕ × ℕ) keyLe := by
  constructor
  intro a b
  unfold keyLe
  omega

instance : IsTrans (ℕ × ℕ) keyLe := by
  constructor
  intro a b c
  unfold keyLe
  omega

/-- The sorted item list built at the top of `get_tail_items` / `get_head_items`. -/
def sortKey (counts : List (ℕ × ℕ)) : List (ℕ × ℕ) :=
  List.insertionSort keyLe counts

/-- Sum of the counts of a list of (item, count) pairs. -/
def sumSnd (l : List (ℕ × ℕ)) : ℕ :=
  (l.map Prod.snd).sum

/-- Total interaction mass: `total = sum(cnt for _, cnt in sorted_items)`. -/
def totalOf (counts : List (ℕ × ℕ)) : ℕ :=
  sumSnd (sortKey counts)

/-- Largest count in the table (`max(counts.values())`, 0 for an empty table). -/
def maxCount (counts : List (ℕ × ℕ)) : ℕ :=
  (counts.map Prod.snd).foldr Nat.max 0

/-- Dictionary lookup `counts[i]` (0 when absent); keys are assumed distinct. -/
def countOf : List (ℕ × ℕ) → ℕ → ℕ
  | [], _ => 0
  | (j, c) :: rest, i => if i = j then c else countOf rest i

/-- The accumulation loop shared by `get_tail_items` and `get_head_items`:
walk the list keeping a running sum `cum`, collect each visited pair, and
stop (inclusively) as soon as `cum + cnt` reaches the threshold `t`. -/
def takeUntil (t : ℚ) : ℚ → List (ℕ × ℕ) → List (ℕ × ℕ)
  | _, [] => []
  | cum, (i, c) :: rest =>
      if t ≤ cum + (c : ℚ) then [(i, c)]
      else (i, c) :: takeUntil t (cum + (c : ℚ)) rest

namespace CumulativeTailPercentage

/-- The constructor line
`self.tail_ratio = config["tail_ratio"] if config["tail_ratio"] else 0.2`:
an absent (`none`) or zero configured value falls back to 0.2, anything else
is stored unchanged. -/
def tailRatioOf (cfg : Option ℚ) : ℚ :=
  match cfg with
  | none => 0.2
  | some r => if r = 0 then 0.2 else r

/-- Embedding of `get_tail_items`: sort ascending by (count, id), accumulate
until the running sum reaches `tail_ratio * total`, return the item set. -/
def get_tail_items (r : ℚ) (counts : List (ℕ × ℕ)) : Finset ℕ :=
  ((takeUntil (r * (totalOf counts : ℚ)) 0 (sortKey counts)).map Prod.fst).toFinset

/-- Embedding of `get_tail_matrix` (`np.isin(item_matrix, list(tail_items))`
cast to float): 1.0 at positions whose item lies in the tail set. -/
def get_tail_matrix (item_matrix : List (List ℕ)) (tail_items : Finset ℕ) :
    List (List ℚ) :=
  item_matrix.map (fun row => row.map (fun i => if i ∈ tail_items then (1 : ℚ) else 0))

/-- Running sums of a row, continuing from `acc` (`cumsum` along the row). -/
def cumsumFrom (acc : ℚ) : List ℚ → List ℚ
  | [] => []
  | x :: xs => (acc + x) :: cumsumFrom (acc + x) xs

/-- One row of `metric_info`: `values.cumsum(axis=1) / np.arange(1, n + 1)`. -/
def metricInfoRow (row : List ℚ) : List ℚ :=
  (cumsumFrom 0 row).zipWith (fun s k => s / k)
    ((List.range row.length).map (fun i => ((i + 1 : ℕ) : ℚ)))

/-- Embedding of `metric_info`, applied row by row. -/
def metric_info (values : List (List ℚ)) : List (List ℚ) :=
  values.map metricInfoRow

/-- Number of columns of the matrix (`values.shape[1]`, rows are uniform). -/
def ncols (values : List (List ℚ)) : ℕ :=
  (values.headD []).length

/-- Column mean over users: column `j` of `values.mean(axis=0)`. -/
def colMean (values : List (List ℚ)) (j : ℕ) : ℚ :=
  ((values.map (fun row => row.getD j 0)).sum) / (values.length : ℚ)

/-- The vector `avg_result = values.mean(axis=0)`. -/
def avgResult (values : List (List ℚ)) : List ℚ :=
  (List.range (ncols values)).map (colMean values)

/-- Python/numpy 1-d indexing `l[idx]`: negative indices address from the
end, out-of-range indices fail (`IndexError`). -/
def pyGet (l : List ℚ) (idx : ℤ) : Option ℚ :=
  let j : ℤ := if idx < 0 then idx + (l.length : ℤ) else idx
  if 0 ≤ j then l.get? j.toNat else none

/-- Round-half-to-even on rationals, the behaviour of Python `round`. -/
def roundHalfEven (q : ℚ) : ℤ :=
  let f := ⌊q⌋
  if q - (f : ℚ) < 1 / 2 then f
  else if (1 : ℚ) / 2 < q - (f : ℚ) then f + 1
  else if f % 2 = 0 then f else f + 1

/-- Python `round(x, dp)` on exact rationals. -/
def roundTo (dp : ℕ) (q : ℚ) : ℚ :=
  ((roundHalfEven (q * 10 ^ dp) : ℤ) : ℚ) / 10 ^ dp

/-- The loop body of `topk_result`: for each cutoff `k` look up
`avg_result[k - 1]`, round, and key the value as `"{metric}@{k}"`.
An out-of-range lookup aborts the whole computation (`IndexError`). -/
def resultEntries (metric : String) (dp : ℕ) (avg : List ℚ) :
    List ℕ → Option (List (String × ℚ))
  | [] => some []
  | k :: ks =>
      match pyGet avg ((k : ℤ) - 1) with
      | none => none
      | some v =>
          (resultEntries metric dp avg ks).map
            (fun rest => (metric ++ "@" ++ toString k, roundTo dp v) :: rest)

/-- Embedding of `topk_result`: average over users, then one rounded entry
per configured cutoff. -/
def topk_result (topk : List ℕ) (metric : String) (dp : ℕ)
    (values : List (List ℚ)) : Option (List (String × ℚ)) :=
  resultEntries metric dp (avgResult values) topk

end CumulativeTailPercentage

namespace CumulativeHeadPercentage

/-- The constructor line of `CumulativeHeadPercentage`, identical to the tail
metric: falsy configured values fall back to 0.2. -/
def tailRatioOf (cfg : Option ℚ) : ℚ :=
  match cfg with
  | none => 0.2
  | some r => if r = 0 then 0.2 else r

/-- Embedding of `get_head_items`: iterate the ascending (count, id) order in
reverse (most popular first) and accumulate until the running sum reaches
`tail_ratio * total` — the same configured `tail_ratio`, not a separate head
ratio. -/
def get_head_items (r : ℚ) (counts : List (ℕ × ℕ)) : Finset ℕ :=
  ((takeUntil (r * (totalOf counts : ℚ)) 0 (sortKey counts).reverse).map Prod.fst).toFinset

end CumulativeHeadPercentage

/-- Modelled from the spec (§4.1, complement-of-head policy): sort items
descending by count, accumulate until the cumulative sum reaches
`head_ratio * total`, where `head_ratio` defaults to `1 - tail_ratio`.  This
is the head set the specification describes; the code under test is
`CumulativeHeadPercentage.get_head_items`. -/
def specHeadItems (headRat : ℚ) (counts : List (ℕ × ℕ)) : Finset ℕ :=
  ((takeUntil (headRat * (totalOf counts : ℚ)) 0 (sortKey counts).reverse).map Prod.fst).toFinset

namespace WandbLogger

/-- Arithmetic mean (`np.mean`) of a bucket of metric values. -/
def meanOf (vs : List ℚ) : ℚ :=
  vs.sum / (vs.length : ℚ)

/-- Population variance (`np.std` squared) of a bucket of metric values. -/
def varOf (vs : List ℚ) : ℚ :=
  ((vs.map (fun v => (v - meanOf vs) ^ 2)).sum) / (vs.length : ℚ)

/-- The guarded coefficient of variation of `log_group_summary_table`:
`coeff_var = float(std / mean) if mean != 0 else 0.0`. -/
def coeffVar (std mean : ℚ) : ℚ :=
  if mean ≠ 0 then std / mean else 0

/-- Metric columns of the detail table in `log_group_eval`: the set of all
metric names seen across the records (`all_metrics`), sorted. -/
def metricNames (records : List (List (String × ℚ))) : List String :=
  List.insertionSort (· ≤ ·) ((records.map (fun row => row.map Prod.fst)).flatten.dedup)

/-- Cell value `row.get(m)` of the detail table: `none` when the record has
no entry for the metric `m`. -/
def cellOf (row : List (String × ℚ)) (m : String) : Option ℚ :=
  match row with
  | [] => none
  | (k, v) :: rest => if k = m then some v else cellOf rest m

end WandbLogger

/-!
Helper lemmas about the accumulation loop, the dictionary lookup and the
sorted order.
-/

theorem takeUntil_sublist (t : ℚ) :
    ∀ (l : List (ℕ × ℕ)) (cum : ℚ), (takeUntil t cum l).Sublist l := by
  intro l
  induction l with
  | nil => intro cum; simp [takeUntil]
  | cons p rest ih =>
      intro cum
      obtain ⟨i, c⟩ := p
      simp only [takeUntil]
      split
      · exact (List.nil_sublist rest).cons₂ _
      · exact (ih _).cons₂ _

theorem takeUntil_mem (t : ℚ) (l : List (ℕ × ℕ)) (cum : ℚ) :
    ∀ p ∈ takeUntil t cum l, p ∈ l :=
  fun _ hp => (takeUntil_sublist t l cum).mem hp

theorem sumSnd_cons (p : ℕ × ℕ) (l : List (ℕ × ℕ)) :
    sumSnd (p :: l) = p.2 + sumSnd l := by
  simp [sumSnd]

theorem takeUntil_mass_ge :
    ∀ (l : List (ℕ × ℕ)) (t cum : ℚ), l ≠ [] → t ≤ cum + (sumSnd l : ℚ) →
      t ≤ cum + (sumSnd (takeUntil t cum l) : ℚ) := by
  intro l
  induction l with
  | nil => intro t cum h; exact absurd rfl h
  | cons p rest ih =>
      intro t cum _ hle
      obtain ⟨i, c⟩ := p
      simp only [takeUntil]
      split
      · next hcross => simpa [sumSnd] using hcross
      · next hcross =>
          push_neg at hcross
          match rest with
          | [] =>
              exfalso
              rw [sumSnd_cons] at hle
              simp [sumSnd] at hle
              linarith
          | q :: rest' =>
              have h2 : t ≤ (cum + (c : ℚ)) + (sumSnd (q :: rest') : ℚ) := by
                rw [sumSnd_cons] at hle
                push_cast at hle ⊢
                linarith
              have := ih t (cum + (c : ℚ)) (by simp) h2
              rw [sumSnd_cons]
              push_cast
              push_cast at this
              linarith

theorem takeUntil_mass_lt :
    ∀ (l : List (ℕ × ℕ)) (t cum : ℚ) (M : ℕ), cum < t → (∀ p ∈ l, p.2 ≤ M) →
      cum + (sumSnd (takeUntil t cum l) : ℚ) < t + (M : ℚ) := by
  intro l
  induction l with
  | nil =>
      intro t cum M hlt _
      simp only [takeUntil, sumSnd, List.map_nil, List.sum_nil]
      have : (0 : ℚ) ≤ (M : ℚ) := by positivity
      push_cast
      linarith
  | cons p rest ih =>
      intro t cum M hlt hM
      obtain ⟨i, c⟩ := p
      simp only [takeUntil]
      split
      · next hcross =>
          have hc : (c : ℚ) ≤ (M : ℚ) := by
            exact_mod_cast hM (i, c) (List.mem_cons_self _ _)
          rw [sumSnd_cons]
          simp only [sumSnd, List.map_nil, List.sum_nil]
          push_cast
          linarith
      · next hcross =>
          push_neg at hcross
          have := ih t (cum + (c : ℚ)) M hcross
            (fun q hq => hM q (List.mem_cons_of_mem _ hq))
          rw [sumSnd_cons]
          push_cast
          push_cast at this
          linarith

theorem takeUntil_all :
    ∀ (l : List (ℕ × ℕ)) (cum : ℚ),
      l.Pairwise (fun a b => a.2 ≤ b.2) → 0 < sumSnd l →
      takeUntil (cum + (sumSnd l : ℚ)) cum l = l := by
  intro l
  induction l with
  | nil => intro cum _ h; simp [sumSnd] at h
  | cons p rest ih =>
      intro cum hpw hpos
      obtain ⟨i, c⟩ := p
      match rest with
      | [] =>
          simp only [takeUntil, sumSnd_cons]
          rw [if_pos]
          simp only [sumSnd, List.map_nil, List.sum_nil]
          push_cast
          linarith
      | q :: rest' =>
          have hrestpos : 0 < sumSnd (q :: rest') := by
            by_contra h
            push_neg at h
            interval_cases hsz : sumSnd (q :: rest')
            have hq2 : q.2 = 0 := by
              have := sumSnd_cons q rest'
              omega
            have hc : c ≤ q.2 := (List.pairwise_cons.mp hpw).1 q (List.mem_cons_self _ _)
            have : sumSnd ((i, c) :: q :: rest') = 0 := by
              rw [sumSnd_cons]
              simp only
              omega
            omega
          have hno : ¬ (cum + (sumSnd ((i, c) :: q :: rest') : ℚ) ≤ cum + (c : ℚ)) := by
            push_neg
            rw [sumSnd_cons]
            have : (0 : ℚ) < (sumSnd (q :: rest') : ℚ) := by exact_mod_cast hrestpos
            push_cast
            linarith
          have hstep : takeUntil (cum + (sumSnd ((i, c) :: q :: rest') : ℚ)) cum
              ((i, c) :: q :: rest') =
              (i, c) :: takeUntil (cum + (sumSnd ((i, c) :: q :: rest') : ℚ))
                (cum + (c : ℚ)) (q :: rest') := by
            rw [takeUntil, if_neg hno]
          rw [hstep]
          have harg : cum + (sumSnd ((i, c) :: q :: rest') : ℚ) =
              (cum + (c : ℚ)) + (sumSnd (q :: rest') : ℚ) := by
            rw [sumSnd_cons]
            push_cast
            ring
          rw [harg, ih (cum + (c : ℚ)) (List.pairwise_cons.mp hpw).2 hrestpos]

theorem countOf_eq_of_mem :
    ∀ (counts : List (ℕ × ℕ)) (i c : ℕ),
      (counts.map Prod.fst).Nodup → (i, c) ∈ counts → countOf counts i = c := by
  intro counts
  induction counts with
  | nil => intro i c _ h; simp at h
  | cons p rest ih =>
      intro i c hnd hmem
      obtain ⟨j, d⟩ := p
      simp only [List.map_cons, List.nodup_cons] at hnd
      rcases List.mem_cons.mp hmem with heq | hmem'
      · obtain ⟨h1, h2⟩ := Prod.mk.injEq .. ▸ heq
        subst h1
        subst h2
        simp [countOf]
      · have hne : i ≠ j := by
          intro h
          subst h
          exact hnd.1 (List.mem_map.mpr ⟨(i, c), hmem', rfl⟩)
        simp only [countOf, if_neg hne]
        exact ih i c hnd.2 hmem'

theorem le_maxCount (counts : List (ℕ × ℕ)) :
    ∀ p ∈ counts, p.2 ≤ maxCount counts := by
  induction counts with
  | nil => simp
  | cons q rest ih =>
      intro p hp
      simp only [maxCount, List.map_cons, List.foldr_cons]
      rcases List.mem_cons.mp hp with heq | hmem
      · subst heq
        exact Nat.le_max_left _ _
      · exact Nat.le_trans (ih p hmem) (Nat.le_max_right _ _)

theorem sum_toFinset_countOf (counts taken : List (ℕ × ℕ))
    (hnd : (counts.map Prod.fst).Nodup)
    (hndt : (taken.map Prod.fst).Nodup)
    (hsub : ∀ p ∈ taken, p ∈ counts) :
    ∑ i ∈ (taken.map Prod.fst).toFinset, countOf counts i = sumSnd taken := by
  rw [List.sum_toFinset _ hndt, List.map_map]
  unfold sumSnd
  congr 1
  apply List.map_congr_left
  intro p hp
  obtain ⟨i, c⟩ := p
  exact countOf_eq_of_mem counts i c hnd (hsub _ hp)

theorem sortKey_perm (counts : List (ℕ × ℕ)) : (sortKey counts).Perm counts :=
  List.perm_insertionSort keyLe counts

theorem sortKey_sorted (counts : List (ℕ × ℕ)) : (sortKey counts).Sorted keyLe :=
  List.sorted_insertionSort keyLe counts

theorem totalOf_eq_sum (counts : List (ℕ × ℕ)) :
    totalOf counts = (counts.map Prod.snd).sum := by
  unfold totalOf sumSnd
  exact ((sortKey_perm counts).map Prod.snd).sum_eq

theorem sortKey_ne_nil (counts : List (ℕ × ℕ)) (hne : counts ≠ []) :
    sortKey counts ≠ [] := by
  intro h
  apply hne
  have hperm := sortKey_perm counts
  rw [h] at hperm
  exact hperm.symm.eq_nil

/-- C1 (amended: the popularity table must carry positive total mass).  For a
non-empty table with distinct keys, positive total count and a ratio in
(0, 1], `get_tail_items` returns a subset of the table's keys, the total used
is the sum of all counts, and the interaction mass of the returned set lies
in [ratio * total, ratio * total + max count). -/
theorem tail_classification_mass_bounds (counts : List (ℕ × ℕ)) (r : ℚ)
    (hne : counts ≠ []) (hnd : (counts.map Prod.fst).Nodup)
    (hr0 : 0 < r) (hr1 : r ≤ 1) (htot : 0 < totalOf counts) :
    CumulativeTailPercentage.get_tail_items r counts ⊆ (counts.map Prod.fst).toFinset ∧
    totalOf counts = (counts.map Prod.snd).sum ∧
    r * (totalOf counts : ℚ) ≤
      ((∑ i ∈ CumulativeTailPercentage.get_tail_items r counts, countOf counts i : ℕ) : ℚ) ∧
    ((∑ i ∈ CumulativeTailPercentage.get_tail_items r counts, countOf counts i : ℕ) : ℚ) <
      r * (totalOf counts : ℚ) + (maxCount counts : ℚ) := by
  have hsubl := takeUntil_sublist (r * (totalOf counts : ℚ)) (sortKey counts) 0
  have hsub : ∀ p ∈ takeUntil (r * (totalOf counts : ℚ)) 0 (sortKey counts), p ∈ counts :=
    fun p hp => (sortKey_perm counts).subset (hsubl.mem hp)
  have hnds : ((sortKey counts).map Prod.fst).Nodup :=
    ((sortKey_perm counts).map Prod.fst).nodup_iff.mpr hnd
  have hndt : ((takeUntil (r * (totalOf counts : ℚ)) 0 (sortKey counts)).map Prod.fst).Nodup :=
    (hsubl.map Prod.fst).nodup hnds
  have hmass : ∑ i ∈ CumulativeTailPercentage.get_tail_items r counts, countOf counts i =
      sumSnd (takeUntil (r * (totalOf counts : ℚ)) 0 (sortKey counts)) := by
    unfold CumulativeTailPercentage.get_tail_items
    exact sum_toFinset_countOf counts _ hnd hndt hsub
  have htotq : (0 : ℚ) ≤ (totalOf counts : ℚ) := by positivity
  refine ⟨?_, totalOf_eq_sum counts, ?_, ?_⟩
  · intro x hx
    unfold CumulativeTailPercentage.get_tail_items at hx
    rw [List.mem_toFinset] at hx
    rw [List.mem_toFinset]
    obtain ⟨p, hp, rfl⟩ := List.mem_map.mp hx
    exact List.mem_map.mpr ⟨p, hsub p hp, rfl⟩
  · rw [hmass]
    have hentry : r * (totalOf counts : ℚ) ≤ 0 + (sumSnd (sortKey counts) : ℚ) := by
      have : sumSnd (sortKey counts) = totalOf counts := rfl
      rw [this]
      nlinarith
    have hlow := takeUntil_mass_ge (sortKey counts) (r * (totalOf counts : ℚ)) 0
      (sortKey_ne_nil counts hne) hentry
    linarith
  · rw [hmass]
    have hpos : (0 : ℚ) < r * (totalOf counts : ℚ) := by
      have : (0 : ℚ) < (totalOf counts : ℚ) := by exact_mod_cast htot
      positivity
    have hbound : ∀ p ∈ sortKey counts, p.2 ≤ maxCount counts :=
      fun p hp => le_maxCount counts p ((sortKey_perm counts).subset hp)
    have hup := takeUntil_mass_lt (sortKey counts) (r * (totalOf counts : ℚ)) 0
      (maxCount counts) hpos hbound
    linarith

/-- Witness for `tail_classification_mass_bounds` at the spec's concrete
scenario counts = {A:10, B:5, C:3, D:2} (A,B,C,D = 0,1,2,3) and ratio 0.2. -/
theorem tail_classification_mass_bounds_witness :
    ([(0, 10), (1, 5), (2, 3), (3, 2)] : List (ℕ × ℕ)) ≠ [] ∧
    (([(0, 10), (1, 5), (2, 3), (3, 2)] : List (ℕ × ℕ)).map Prod.fst).Nodup ∧
    (0 : ℚ) < 0.2 ∧ (0.2 : ℚ) ≤ 1 ∧ 0 < totalOf [(0, 10), (1, 5), (2, 3), (3, 2)] ∧
    (CumulativeTailPercentage.get_tail_items 0.2 [(0, 10), (1, 5), (2, 3), (3, 2)] ⊆
      (([(0, 10), (1, 5), (2, 3), (3, 2)] : List (ℕ × ℕ)).map Prod.fst).toFinset ∧
    totalOf [(0, 10), (1, 5), (2, 3), (3, 2)] =
      (([(0, 10), (1, 5), (2, 3), (3, 2)] : List (ℕ × ℕ)).map Prod.snd).sum ∧
    (0.2 : ℚ) * (totalOf [(0, 10), (1, 5), (2, 3), (3, 2)] : ℚ) ≤
      ((∑ i ∈ CumulativeTailPercentage.get_tail_items 0.2 [(0, 10), (1, 5), (2, 3), (3, 2)],
        countOf [(0, 10), (1, 5), (2, 3), (3, 2)] i : ℕ) : ℚ) ∧
    ((∑ i ∈ CumulativeTailPercentage.get_tail_items 0.2 [(0, 10), (1, 5), (2, 3), (3, 2)],
        countOf [(0, 10), (1, 5), (2, 3), (3, 2)] i : ℕ) : ℚ) <
      (0.2 : ℚ) * (totalOf [(0, 10), (1, 5), (2, 3), (3, 2)] : ℚ) +
        (maxCount [(0, 10), (1, 5), (2, 3), (3, 2)] : ℚ)) :=
  ⟨by decide, by decide, by norm_num, by norm_num, by decide,
    tail_classification_mass_bounds [(0, 10), (1, 5), (2, 3), (3, 2)] 0.2
      (by decide) (by decide) (by norm_num) (by norm_num) (by decide)⟩

/-- C1 counterexample: with the all-zero table {1: 0} and ratio 1 the claim's
strict upper bound fails — the tail is {1} with mass 0, and
ratio * total + max(counts) = 0, so the bound mass < 0 is false. -/
theorem tail_mass_upper_bound_fails_on_zero_total :
    CumulativeTailPercentage.get_tail_items 1 [(1, 0)] = {1} ∧
    ¬ (((∑ i ∈ CumulativeTailPercentage.get_tail_items 1 [(1, 0)],
          countOf [(1, 0)] i : ℕ) : ℚ) <
        1 * (totalOf [(1, 0)] : ℚ) + (maxCount [(1, 0)] : ℚ)) := by
  have h1 : CumulativeTailPercentage.get_tail_items 1 [(1, 0)] = {1} := by
    norm_num [CumulativeTailPercentage.get_tail_items, takeUntil, sortKey,
      List.insertionSort, totalOf, sumSnd]
  refine ⟨h1, ?_⟩
  rw [h1]
  norm_num [countOf, totalOf, maxCount, sortKey, List.insertionSort, sumSnd]

theorem sortKey_pairwise_snd (counts : List (ℕ × ℕ)) :
    (sortKey counts).Pairwise (fun a b => a.2 ≤ b.2) := by
  apply List.Pairwise.imp _ (sortKey_sorted counts)
  intro a b h
  rcases h with h | h
  · exact Nat.le_of_lt h
  · exact le_of_eq h.1

/-- C4 (amended): with a ratio of 0 the bottom-up classification returns the
singleton holding the first item of the ascending (count, id) order — the
least popular item — not the empty set; with a ratio of 1 and positive total
mass it returns the full item universe.  Neither case is an error. -/
theorem classification_boundary_behaviour (counts : List (ℕ × ℕ)) (p : ℕ × ℕ)
    (l : List (ℕ × ℕ)) (hsort : sortKey counts = p :: l)
    (htot : 0 < totalOf counts) :
    CumulativeTailPercentage.get_tail_items 0 counts = {p.1} ∧
    CumulativeTailPercentage.get_tail_items 1 counts = (counts.map Prod.fst).toFinset := by
  constructor
  · unfold CumulativeTailPercentage.get_tail_items
    rw [hsort, zero_mul]
    obtain ⟨i, c⟩ := p
    rw [takeUntil, if_pos (by positivity)]
    simp
  · unfold CumulativeTailPercentage.get_tail_items
    have hpos : 0 < sumSnd (sortKey counts) := htot
    have hall := takeUntil_all (sortKey counts) 0 (sortKey_pairwise_snd counts) hpos
    have harg : (1 : ℚ) * (totalOf counts : ℚ) = 0 + (sumSnd (sortKey counts) : ℚ) := by
      unfold totalOf
      ring
    rw [harg, hall]
    exact List.toFinset_eq_of_perm _ _ ((sortKey_perm counts).map Prod.fst)

/-- Witness for `classification_boundary_behaviour` on the table
{1: 2, 2: 3}: ratio 0 gives {1}, ratio 1 gives {1, 2}. -/
theorem classification_boundary_behaviour_witness :
    sortKey [(1, 2), (2, 3)] = (1, 2) :: [(2, 3)] ∧
    0 < totalOf [(1, 2), (2, 3)] ∧
    (CumulativeTailPercentage.get_tail_items 0 [(1, 2), (2, 3)] = {(1, 2).1} ∧
     CumulativeTailPercentage.get_tail_items 1 [(1, 2), (2, 3)] =
       (([(1, 2), (2, 3)] : List (ℕ × ℕ)).map Prod.fst).toFinset) :=
  ⟨by decide, by decide,
    classification_boundary_behaviour [(1, 2), (2, 3)] (1, 2) [(2, 3)]
      (by decide) (by decide)⟩

/-- C4 counterexample: on the table {1: 1, 2: 1} a ratio of 0 does not return
the empty set — the loop adds the first sorted item before testing the
threshold, so the result is the singleton {1}. -/
theorem tail_ratio_zero_not_empty :
    CumulativeTailPercentage.get_tail_items 0 [(1, 1), (2, 1)] = {1} ∧
    CumulativeTailPercentage.get_tail_items 0 [(1, 1), (2, 1)] ≠ ∅ := by
  have h : CumulativeTailPercentage.get_tail_items 0 [(1, 1), (2, 1)] = {1} := by
    norm_num [CumulativeTailPercentage.get_tail_items, totalOf, sortKey, sumSnd,
      takeUntil, keyLe, List.insertionSort, List.orderedInsert]
  refine ⟨h, ?_⟩
  rw [h]
  decide

theorem sumSnd_reverse (l : List (ℕ × ℕ)) : sumSnd l.reverse = sumSnd l := by
  unfold sumSnd
  exact (l.reverse_perm.map Prod.snd).sum_eq

/-- C3 (amended): `get_head_items` iterates the items in descending
(count, id) order — the reverse of the ascending sort, a deterministic
tie-break — and accumulates counts until the cumulative sum reaches
`tail_ratio * total`, the same configured tail ratio (there is no
independent head ratio and no `1 - tail_ratio` default); the accumulated
set is the head, a subset of the keys with mass in
[tail_ratio * total, tail_ratio * total + max count). -/
theorem head_classification_uses_tail_ratio (counts : List (ℕ × ℕ)) (r : ℚ)
    (hne : counts ≠ []) (hnd : (counts.map Prod.fst).Nodup)
    (hr0 : 0 < r) (hr1 : r ≤ 1) (htot : 0 < totalOf counts) :
    ((sortKey counts).reverse).Pairwise (fun a b => keyLe b a) ∧
    CumulativeHeadPercentage.get_head_items r counts ⊆ (counts.map Prod.fst).toFinset ∧
    r * (totalOf counts : ℚ) ≤
      ((∑ i ∈ CumulativeHeadPercentage.get_head_items r counts, countOf counts i : ℕ) : ℚ) ∧
    ((∑ i ∈ CumulativeHeadPercentage.get_head_items r counts, countOf counts i : ℕ) : ℚ) <
      r * (totalOf counts : ℚ) + (maxCount counts : ℚ) := by
  have hrevperm : (sortKey counts).reverse.Perm counts :=
    (sortKey counts).reverse_perm.trans (sortKey_perm counts)
  have hsubl := takeUntil_sublist (r * (totalOf counts : ℚ)) (sortKey counts).reverse 0
  have hsub : ∀ p ∈ takeUntil (r * (totalOf counts : ℚ)) 0 (sortKey counts).reverse,
      p ∈ counts := fun p hp => hrevperm.subset (hsubl.mem hp)
  have hnds : ((sortKey counts).reverse.map Prod.fst).Nodup :=
    (hrevperm.map Prod.fst).nodup_iff.mpr hnd
  have hndt : ((takeUntil (r * (totalOf counts : ℚ)) 0
      (sortKey counts).reverse).map Prod.fst).Nodup :=
    (hsubl.map Prod.fst).nodup hnds
  have hmass : ∑ i ∈ CumulativeHeadPercentage.get_head_items r counts, countOf counts i =
      sumSnd (takeUntil (r * (totalOf counts : ℚ)) 0 (sortKey counts).reverse) := by
    unfold CumulativeHeadPercentage.get_head_items
    exact sum_toFinset_countOf counts _ hnd hndt hsub
  have hrevne : (sortKey counts).reverse ≠ [] := by
    intro h
    exact sortKey_ne_nil counts hne (by simpa using congrArg List.reverse h)
  refine ⟨?_, ?_, ?_, ?_⟩
  · exact List.pairwise_reverse.mpr (sortKey_sorted counts)
  · intro x hx
    unfold CumulativeHeadPercentage.get_head_items at hx
    rw [List.mem_toFinset] at hx
    rw [List.mem_toFinset]
    obtain ⟨p, hp, rfl⟩ := List.mem_map.mp hx
    exact List.mem_map.mpr ⟨p, hsub p hp, rfl⟩
  · rw [hmass]
    have hentry : r * (totalOf counts : ℚ) ≤ 0 + (sumSnd (sortKey counts).reverse : ℚ) := by
      rw [sumSnd_reverse]
      have : sumSnd (sortKey counts) = totalOf counts := rfl
      rw [this]
      have htotq : (0 : ℚ) ≤ (totalOf counts : ℚ) := by positivity
      nlinarith
    have hlow := takeUntil_mass_ge (sortKey counts).reverse (r * (totalOf counts : ℚ)) 0
      hrevne hentry
    linarith
  · rw [hmass]
    have hpos : (0 : ℚ) < r * (totalOf counts : ℚ) := by
      have : (0 : ℚ) < (totalOf counts : ℚ) := by exact_mod_cast htot
      positivity
    have hbound : ∀ p ∈ (sortKey counts).reverse, p.2 ≤ maxCount counts :=
      fun p hp => le_maxCount counts p (hrevperm.subset hp)
    have hup := takeUntil_mass_lt (sortKey counts).reverse (r * (totalOf counts : ℚ)) 0
      (maxCount counts) hpos hbound
    linarith

/-- Witness for `head_classification_uses_tail_ratio` on
{A:10, B:5, C:3, D:2} with ratio 0.2. -/
theorem head_classification_uses_tail_ratio_witness :
    ([(0, 10), (1, 5), (2, 3), (3, 2)] : List (ℕ × ℕ)) ≠ [] ∧
    (([(0, 10), (1, 5), (2, 3), (3, 2)] : List (ℕ × ℕ)).map Prod.fst).Nodup ∧
    (0 : ℚ) < 0.2 ∧ (0.2 : ℚ) ≤ 1 ∧ 0 < totalOf [(0, 10), (1, 5), (2, 3), (3, 2)] ∧
    (((sortKey [(0, 10), (1, 5), (2, 3), (3, 2)]).reverse).Pairwise (fun a b => keyLe b a) ∧
    CumulativeHeadPercentage.get_head_items 0.2 [(0, 10), (1, 5), (2, 3), (3, 2)] ⊆
      (([(0, 10), (1, 5), (2, 3), (3, 2)] : List (ℕ × ℕ)).map Prod.fst).toFinset ∧
    (0.2 : ℚ) * (totalOf [(0, 10), (1, 5), (2, 3), (3, 2)] : ℚ) ≤
      ((∑ i ∈ CumulativeHeadPercentage.get_head_items 0.2 [(0, 10), (1, 5), (2, 3), (3, 2)],
        countOf [(0, 10), (1, 5), (2, 3), (3, 2)] i : ℕ) : ℚ) ∧
    ((∑ i ∈ CumulativeHeadPercentage.get_head_items 0.2 [(0, 10), (1, 5), (2, 3), (3, 2)],
        countOf [(0, 10), (1, 5), (2, 3), (3, 2)] i : ℕ) : ℚ) <
      (0.2 : ℚ) * (totalOf [(0, 10), (1, 5), (2, 3), (3, 2)] : ℚ) +
        (maxCount [(0, 10), (1, 5), (2, 3), (3, 2)] : ℚ)) :=
  ⟨by decide, by decide, by norm_num, by norm_num, by decide,
    head_classification_uses_tail_ratio [(0, 10), (1, 5), (2, 3), (3, 2)] 0.2
      (by decide) (by decide) (by norm_num) (by norm_num) (by decide)⟩

/-- C3 counterexample: on {A:10, B:5, C:3, D:2} with tail_ratio 0.2 the code
accumulates the descending order only up to 0.2 * total = 4, giving head
{A}, whereas the claimed policy (accumulate to head_ratio * total with
head_ratio defaulting to 1 - 0.2 = 0.8, threshold 16) gives {A, B, C}. -/
theorem head_items_differ_from_spec_complement :
    CumulativeHeadPercentage.get_head_items 0.2 [(0, 10), (1, 5), (2, 3), (3, 2)] = {0} ∧
    specHeadItems (1 - 0.2) [(0, 10), (1, 5), (2, 3), (3, 2)] = {0, 1, 2} ∧
    CumulativeHeadPercentage.get_head_items 0.2 [(0, 10), (1, 5), (2, 3), (3, 2)] ≠
      specHeadItems (1 - 0.2) [(0, 10), (1, 5), (2, 3), (3, 2)] := by
  have h1 : CumulativeHeadPercentage.get_head_items 0.2
      [(0, 10), (1, 5), (2, 3), (3, 2)] = {0} := by
    norm_num [CumulativeHeadPercentage.get_head_items, totalOf, sortKey, sumSnd,
      takeUntil, keyLe, List.insertionSort, List.orderedInsert]
  have h2 : specHeadItems (1 - 0.2) [(0, 10), (1, 5), (2, 3), (3, 2)] = {0, 1, 2} := by
    norm_num [specHeadItems, totalOf, sortKey, sumSnd,
      takeUntil, keyLe, List.insertionSort, List.orderedInsert]
  refine ⟨h1, h2, ?_⟩
  rw [h1, h2]
  decide

/-- C5 (amended): on an empty popularity table neither classifier raises an
error — both silently return the empty set (the loop body never runs). -/
theorem empty_table_silently_returns_empty (r : ℚ) :
    CumulativeTailPercentage.get_tail_items r [] = ∅ ∧
    CumulativeHeadPercentage.get_head_items r [] = ∅ := by
  constructor
  · simp [CumulativeTailPercentage.get_tail_items, sortKey, List.insertionSort, takeUntil]
  · simp [CumulativeHeadPercentage.get_head_items, sortKey, List.insertionSort, takeUntil]

/-- C5 counterexample: with the default ratio 0.2 and an empty table the
classification returns the empty set — it does not fail, contradicting the
claim that an `InvalidInputError` is raised instead of silently returning ∅. -/
theorem empty_table_returns_empty_set_not_error :
    CumulativeTailPercentage.get_tail_items 0.2 [] = ∅ := by
  simp [CumulativeTailPercentage.get_tail_items, sortKey, List.insertionSort, takeUntil]

/-- C6 (amended): the constructors perform no range validation — a nonzero
configured ratio is stored unchanged whatever its value (so ratios outside
(0, 1] are accepted silently), and only the falsy values (absent or 0) are
replaced by the default 0.2. -/
theorem constructor_stores_ratio_unvalidated (x : ℚ) (hx : x ≠ 0) :
    CumulativeTailPercentage.tailRatioOf (some x) = x ∧
    CumulativeHeadPercentage.tailRatioOf (some x) = x ∧
    CumulativeTailPercentage.tailRatioOf none = 0.2 ∧
    CumulativeHeadPercentage.tailRatioOf none = 0.2 := by
  refine ⟨?_, ?_, rfl, rfl⟩
  · simp [CumulativeTailPercentage.tailRatioOf, hx]
  · simp [CumulativeHeadPercentage.tailRatioOf, hx]

/-- Witness for `constructor_stores_ratio_unvalidated` at the out-of-range
ratio 3/2. -/
theorem constructor_stores_ratio_unvalidated_witness :
    (3 / 2 : ℚ) ≠ 0 ∧
    (CumulativeTailPercentage.tailRatioOf (some (3 / 2)) = 3 / 2 ∧
     CumulativeHeadPercentage.tailRatioOf (some (3 / 2)) = 3 / 2 ∧
     CumulativeTailPercentage.tailRatioOf none = 0.2 ∧
     CumulativeHeadPercentage.tailRatioOf none = 0.2) :=
  ⟨by norm_num, constructor_stores_ratio_unvalidated (3 / 2) (by norm_num)⟩

/-- C6 counterexample: the configured ratio 3/2 lies outside (0, 1], yet
construction succeeds and stores 3/2 — no `InvalidConfigurationError` path
exists in the constructor. -/
theorem out_of_range_ratio_accepted :
    CumulativeTailPercentage.tailRatioOf (some (3 / 2)) = 3 / 2 ∧
    ¬ ((3 / 2 : ℚ) ≤ 1) := by
  constructor
  · norm_num [CumulativeTailPercentage.tailRatioOf]
  · norm_num

/-- C10: whenever the configured `tail_ratio` is falsy — absent (`none`) or
exactly 0 — both constructors silently store the default 0.2, so every
subsequent classification runs with ratio 0.2 rather than the configured 0. -/
theorem falsy_tail_ratio_defaults (cfg : Option ℚ) (h : cfg = none ∨ cfg = some 0) :
    CumulativeTailPercentage.tailRatioOf cfg = 0.2 ∧
    CumulativeHeadPercentage.tailRatioOf cfg = 0.2 ∧
    (∀ counts, CumulativeTailPercentage.get_tail_items
      (CumulativeTailPercentage.tailRatioOf cfg) counts =
      CumulativeTailPercentage.get_tail_items 0.2 counts) ∧
    (∀ counts, CumulativeHeadPercentage.get_head_items
      (CumulativeHeadPercentage.tailRatioOf cfg) counts =
      CumulativeHeadPercentage.get_head_items 0.2 counts) := by
  have h1 : CumulativeTailPercentage.tailRatioOf cfg = 0.2 := by
    rcases h with h | h <;> simp [h, CumulativeTailPercentage.tailRatioOf]
  have h2 : CumulativeHeadPercentage.tailRatioOf cfg = 0.2 := by
    rcases h with h | h <;> simp [h, CumulativeHeadPercentage.tailRatioOf]
  exact ⟨h1, h2, fun counts => by rw [h1], fun counts => by rw [h2]⟩

/-- Witness for `falsy_tail_ratio_defaults` at the configured value 0. -/
theorem falsy_tail_ratio_defaults_witness :
    ((some (0 : ℚ)) = none ∨ (some (0 : ℚ)) = some 0) ∧
    (CumulativeTailPercentage.tailRatioOf (some 0) = 0.2 ∧
     CumulativeHeadPercentage.tailRatioOf (some 0) = 0.2 ∧
     (∀ counts, CumulativeTailPercentage.get_tail_items
       (CumulativeTailPercentage.tailRatioOf (some 0)) counts =
       CumulativeTailPercentage.get_tail_items 0.2 counts) ∧
     (∀ counts, CumulativeHeadPercentage.get_head_items
       (CumulativeHeadPercentage.tailRatioOf (some 0)) counts =
       CumulativeHeadPercentage.get_head_items 0.2 counts)) :=
  ⟨Or.inr rfl, falsy_tail_ratio_defaults (some 0) (Or.inr rfl)⟩

theorem avgResult_length (values : List (List ℚ)) :
    (CumulativeTailPercentage.avgResult values).length =
      CumulativeTailPercentage.ncols values := by
  simp [CumulativeTailPercentage.avgResult]

theorem pyGet_none (l : List ℚ) (k : ℕ) (h : l.length < k) :
    CumulativeTailPercentage.pyGet l ((k : ℤ) - 1) = none := by
  have hnneg : ¬ ((k : ℤ) - 1 < 0) := by omega
  simp only [CumulativeTailPercentage.pyGet]
  rw [if_neg hnneg, if_pos (by omega)]
  refine List.get?_eq_none.mpr ?_
  omega

theorem pyGet_some (l : List ℚ) (k : ℕ) (hk1 : 1 ≤ k) (hk2 : k ≤ l.length) :
    CumulativeTailPercentage.pyGet l ((k : ℤ) - 1) = some (l.getD (k - 1) 0) := by
  have hnneg : ¬ ((k : ℤ) - 1 < 0) := by omega
  simp only [CumulativeTailPercentage.pyGet]
  rw [if_neg hnneg, if_pos (by omega)]
  have htn : ((k : ℤ) - 1).toNat = k - 1 := by omega
  rw [htn]
  simp [List.getD_eq_getElem?_getD, List.getElem?_eq_getElem (show k - 1 < l.length by omega)]

theorem resultEntries_none_of_mem (metric : String) (dp : ℕ) (avg : List ℚ) :
    ∀ (topk : List ℕ) (k : ℕ), k ∈ topk →
      CumulativeTailPercentage.pyGet avg ((k : ℤ) - 1) = none →
      CumulativeTailPercentage.resultEntries metric dp avg topk = none := by
  intro topk
  induction topk with
  | nil => intro k h; simp at h
  | cons k' ks ih =>
      intro k hmem hnone
      rcases List.mem_cons.mp hmem with heq | hmem'
      · subst heq
        simp only [CumulativeTailPercentage.resultEntries, hnone]
      · simp only [CumulativeTailPercentage.resultEntries]
        cases hg : CumulativeTailPercentage.pyGet avg ((k' : ℤ) - 1) with
        | none => rfl
        | some v => rw [ih k hmem' hnone]; rfl

/-- C7: when a configured cutoff `k` exceeds the number of columns of the
(cumulative) value matrix, `topk_result` fails — the indexing of
`avg_result[k - 1]` is out of range and aborts the computation rather than
silently truncating to the available columns. -/
theorem topk_result_out_of_range_fails (topk : List ℕ) (metric : String)
    (dp : ℕ) (values : List (List ℚ)) (k : ℕ) (hk : k ∈ topk)
    (hgt : CumulativeTailPercentage.ncols values < k) :
    CumulativeTailPercentage.topk_result topk metric dp values = none := by
  unfold CumulativeTailPercentage.topk_result
  apply resultEntries_none_of_mem metric dp _ topk k hk
  apply pyGet_none
  rw [avgResult_length]
  exact hgt

/-- Witness for `topk_result_out_of_range_fails`: cutoff 3 against a
two-column matrix. -/
theorem topk_result_out_of_range_fails_witness :
    (3 : ℕ) ∈ [3] ∧
    CumulativeTailPercentage.ncols [[0, 1]] < 3 ∧
    CumulativeTailPercentage.topk_result [3] "cumulativetailpercentage" 4 [[0, 1]] = none :=
  ⟨by decide, by decide,
    topk_result_out_of_range_fails [3] "cumulativetailpercentage" 4 [[0, 1]] 3
      (by decide) (by decide)⟩

theorem cumsumFrom_length (l : List ℚ) :
    ∀ a : ℚ, (CumulativeTailPercentage.cumsumFrom a l).length = l.length := by
  induction l with
  | nil => intro a; rfl
  | cons x xs ih =>
      intro a
      simp [CumulativeTailPercentage.cumsumFrom, ih]

theorem cumsumFrom_getD (l : List ℚ) :
    ∀ (a : ℚ) (i : ℕ), i < l.length →
      (CumulativeTailPercentage.cumsumFrom a l).getD i 0 = a + (l.take (i + 1)).sum := by
  induction l with
  | nil => intro a i h; simp at h
  | cons x xs ih =>
      intro a i h
      cases i with
      | zero => simp [CumulativeTailPercentage.cumsumFrom]
      | succ i' =>
          have h' : i' < xs.length := by simpa using h
          simp only [CumulativeTailPercentage.cumsumFrom, List.getD_cons_succ,
            List.take_succ_cons, List.sum_cons]
          rw [ih (a + x) i' h']
          ring

theorem range_map_getD (n : ℕ) (g : ℕ → ℚ) (i : ℕ) (h : i < n) :
    (((List.range n).map g).getD i 0) = g i := by
  rw [List.getD_eq_getElem?_getD, List.getElem?_map, List.getElem?_range h]
  rfl

theorem zipWith_getD (f : ℚ → ℚ → ℚ) :
    ∀ (as bs : List ℚ) (i : ℕ), i < as.length → i < bs.length →
      (as.zipWith f bs).getD i 0 = f (as.getD i 0) (bs.getD i 0) := by
  intro as
  induction as with
  | nil => intro bs i h; simp at h
  | cons a as' ih =>
      intro bs i ha hb
      cases bs with
      | nil => simp at hb
      | cons b bs' =>
          cases i with
          | zero => simp
          | succ i' =>
              simp only [List.zipWith_cons_cons, List.getD_cons_succ]
              exact ih bs' i' (by simpa using ha) (by simpa using hb)

theorem metricInfoRow_getD (row : List ℚ) (k : ℕ) (hk1 : 1 ≤ k)
    (hk2 : k ≤ row.length) :
    (CumulativeTailPercentage.metricInfoRow row).getD (k - 1) 0 =
      (row.take k).sum / (k : ℚ) := by
  unfold CumulativeTailPercentage.metricInfoRow
  rw [zipWith_getD _ _ _ (k - 1)
    (by rw [cumsumFrom_length]; omega)
    (by simp; omega)]
  rw [cumsumFrom_getD row 0 (k - 1) (by omega)]
  rw [range_map_getD row.length _ (k - 1) (by omega)]
  have hkk : k - 1 + 1 = k := by omega
  rw [hkk]
  ring

theorem resultEntries_ok (metric : String) (dp : ℕ) (avg : List ℚ) :
    ∀ topk : List ℕ, (∀ j ∈ topk, 1 ≤ j ∧ j ≤ avg.length) →
      CumulativeTailPercentage.resultEntries metric dp avg topk =
        some (topk.map fun j => (metric ++ "@" ++ toString j,
          CumulativeTailPercentage.roundTo dp (avg.getD (j - 1) 0))) := by
  intro topk
  induction topk with
  | nil => intro _; rfl
  | cons k ks ih =>
      intro h
      obtain ⟨hk1, hk2⟩ := h k (List.mem_cons_self _ _)
      simp only [CumulativeTailPercentage.resultEntries,
        pyGet_some avg k hk1 hk2]
      rw [ih (fun j hj => h j (List.mem_cons_of_mem _ hj))]
      rfl

theorem metric_info_getD (values : List (List ℚ)) (u : ℕ) (hu : u < values.length) :
    (CumulativeTailPercentage.metric_info values).getD u [] =
      CumulativeTailPercentage.metricInfoRow (values.getD u []) := by
  unfold CumulativeTailPercentage.metric_info
  rw [List.getD_eq_getElem?_getD, List.getElem?_map,
    List.getElem?_eq_getElem hu, List.getD_eq_getElem?_getD,
    List.getElem?_eq_getElem hu]
  rfl

/-- C2: the cell (u, k) of `metric_info` equals the running mean
`sum(mask[u, 0..k-1]) / k`; on the spec's concrete scenario (recommendation
row [A, D, B, C, A] = [0, 3, 1, 2, 0] with tail {D, C} = {3, 2}) the mask
row is [0, 1, 0, 1, 0] and the cumulative values at k = 1..5 are
0, 1/2, 1/3, 1/2, 2/5; and `topk_result`'s entries are keyed
"{metric}@{k}" holding the rounded column-wise user mean at column k-1. -/
theorem metric_info_cumulative_cells (values : List (List ℚ)) (u k : ℕ)
    (metric : String) (dp : ℕ) (avg : List ℚ) (topk : List ℕ)
    (hu : u < values.length) (hk1 : 1 ≤ k)
    (hk2 : k ≤ (values.getD u []).length)
    (htopk : ∀ j ∈ topk, 1 ≤ j ∧ j ≤ avg.length) :
    ((CumulativeTailPercentage.metric_info values).getD u []).getD (k - 1) 0 =
      ((values.getD u []).take k).sum / (k : ℚ) ∧
    CumulativeTailPercentage.get_tail_matrix [[0, 3, 1, 2, 0]] {3, 2} =
      [[0, 1, 0, 1, 0]] ∧
    CumulativeTailPercentage.metricInfoRow [0, 1, 0, 1, 0] =
      [0, 1 / 2, 1 / 3, 1 / 2, 2 / 5] ∧
    CumulativeTailPercentage.resultEntries metric dp avg topk =
      some (topk.map fun j => (metric ++ "@" ++ toString j,
        CumulativeTailPercentage.roundTo dp (avg.getD (j - 1) 0))) ∧
    (∀ j, j < CumulativeTailPercentage.ncols values →
      (CumulativeTailPercentage.avgResult values).getD j 0 =
        CumulativeTailPercentage.colMean values j) := by
  refine ⟨?_, ?_, ?_, resultEntries_ok metric dp avg topk htopk, ?_⟩
  · rw [metric_info_getD values u hu]
    exact metricInfoRow_getD (values.getD u []) k hk1 hk2
  · norm_num [CumulativeTailPercentage.get_tail_matrix]
  · norm_num [CumulativeTailPercentage.metricInfoRow,
      CumulativeTailPercentage.cumsumFrom, List.range_succ]
  · intro j hj
    unfold CumulativeTailPercentage.avgResult
    exact range_map_getD _ _ j hj

/-- Witness for `metric_info_cumulative_cells` on the one-user matrix
[[0, 1, 0, 1, 0]] at cutoff 2 with cutoff list [1, 2]. -/
theorem metric_info_cumulative_cells_witness :
    (0 < ([[0, 1, 0, 1, 0]] : List (List ℚ)).length ∧
     1 ≤ 2 ∧ 2 ≤ (([[0, 1, 0, 1, 0]] : List (List ℚ)).getD 0 []).length ∧
     (∀ j ∈ [1, 2], 1 ≤ j ∧ j ≤ ([0, 1 / 2] : List ℚ).length)) ∧
    (((CumulativeTailPercentage.metric_info [[0, 1, 0, 1, 0]]).getD 0 []).getD (2 - 1) 0 =
      ((([[0, 1, 0, 1, 0]] : List (List ℚ)).getD 0 []).take 2).sum / (2 : ℚ) ∧
    CumulativeTailPercentage.get_tail_matrix [[0, 3, 1, 2, 0]] {3, 2} =
      [[0, 1, 0, 1, 0]] ∧
    CumulativeTailPercentage.metricInfoRow [0, 1, 0, 1, 0] =
      [0, 1 / 2, 1 / 3, 1 / 2, 2 / 5] ∧
    CumulativeTailPercentage.resultEntries "cumulativetailpercentage" 4 [0, 1 / 2] [1, 2] =
      some ([1, 2].map fun j => ("cumulativetailpercentage" ++ "@" ++ toString j,
        CumulativeTailPercentage.roundTo 4 (([0, 1 / 2] : List ℚ).getD (j - 1) 0))) ∧
    (∀ j, j < CumulativeTailPercentage.ncols [[0, 1, 0, 1, 0]] →
      (CumulativeTailPercentage.avgResult [[0, 1, 0, 1, 0]]).getD j 0 =
        CumulativeTailPercentage.colMean [[0, 1, 0, 1, 0]] j)) :=
  ⟨⟨by simp, by norm_num, by simp, by decide⟩,
    metric_info_cumulative_cells [[0, 1, 0, 1, 0]] 0 2
      "cumulativetailpercentage" 4 [0, 1 / 2] [1, 2]
      (by simp) (by norm_num) (by simp) (by decide)⟩

theorem cellOf_eq_none (row : List (String × ℚ)) (m : String)
    (hm : ∀ p ∈ row, p.1 ≠ m) : WandbLogger.cellOf row m = none := by
  induction row with
  | nil => rfl
  | cons p rest ih =>
      obtain ⟨k, v⟩ := p
      have hk : k ≠ m := hm (k, v) (List.mem_cons_self _ _)
      simp only [WandbLogger.cellOf, if_neg hk]
      exact ih (fun q hq => hm q (List.mem_cons_of_mem _ hq))

/-- C8: the summary row's coefficient of variation equals std / mean when the
bucket mean is nonzero and is 0.0 when the mean is exactly 0 (the code's
guard, no division-by-zero error); in particular, when every value in the
bucket is 0.0 the mean is 0, the population standard deviation is 0, and the
coefficient of variation is 0.0. -/
theorem coeff_var_guard (vs : List ℚ) (s : ℚ) (_hs0 : 0 ≤ s)
    (hs : s ^ 2 = WandbLogger.varOf vs) :
    (WandbLogger.meanOf vs ≠ 0 →
      WandbLogger.coeffVar s (WandbLogger.meanOf vs) = s / WandbLogger.meanOf vs) ∧
    (WandbLogger.meanOf vs = 0 → WandbLogger.coeffVar s (WandbLogger.meanOf vs) = 0) ∧
    ((∀ v ∈ vs, v = 0) →
      WandbLogger.coeffVar s (WandbLogger.meanOf vs) = 0 ∧ s = 0) := by
  refine ⟨fun h => ?_, fun h => ?_, fun hz => ?_⟩
  · simp [WandbLogger.coeffVar, h]
  · simp [WandbLogger.coeffVar, h]
  · have hmean : WandbLogger.meanOf vs = 0 := by
      unfold WandbLogger.meanOf
      rw [List.sum_eq_zero hz]
      simp
    have hvar : WandbLogger.varOf vs = 0 := by
      unfold WandbLogger.varOf
      rw [List.sum_eq_zero]
      · simp
      · intro x hx
        obtain ⟨v, hv, rfl⟩ := List.mem_map.mp hx
        rw [hz v hv, hmean]
        ring
    have hzero : s = 0 := by
      have h2 : s ^ 2 = 0 := hs.trans hvar
      exact (pow_eq_zero_iff two_ne_zero).mp h2
    exact ⟨by simp [WandbLogger.coeffVar, hmean], hzero⟩

/-- Witness for `coeff_var_guard` on the all-zero bucket [0, 0, 0] with
std 0. -/
theorem coeff_var_guard_witness :
    ((0 : ℚ) ≤ 0 ∧ (0 : ℚ) ^ 2 = WandbLogger.varOf [0, 0, 0]) ∧
    ((WandbLogger.meanOf [0, 0, 0] ≠ 0 →
      WandbLogger.coeffVar 0 (WandbLogger.meanOf [0, 0, 0]) =
        0 / WandbLogger.meanOf [0, 0, 0]) ∧
    (WandbLogger.meanOf [0, 0, 0] = 0 →
      WandbLogger.coeffVar 0 (WandbLogger.meanOf [0, 0, 0]) = 0) ∧
    ((∀ v ∈ ([0, 0, 0] : List ℚ), v = 0) →
      WandbLogger.coeffVar 0 (WandbLogger.meanOf [0, 0, 0]) = 0 ∧ (0 : ℚ) = 0)) :=
  ⟨⟨by norm_num, by norm_num [WandbLogger.varOf, WandbLogger.meanOf]⟩,
    coeff_var_guard [0, 0, 0] 0 (by norm_num)
      (by norm_num [WandbLogger.varOf, WandbLogger.meanOf])⟩

/-- C9: the detail table's metric columns are the sorted union of all metric
names across the records — equal for any two permutations of the record
list, sorted, and containing exactly the names observed in some record —
and a record lacking a metric yields an unset (`none`) cell, not zero. -/
theorem detail_columns_sorted_union (records records' : List (List (String × ℚ)))
    (row : List (String × ℚ)) (m : String)
    (hperm : records.Perm records') (hm : ∀ p ∈ row, p.1 ≠ m) :
    WandbLogger.metricNames records = WandbLogger.metricNames records' ∧
    (WandbLogger.metricNames records).Sorted (· ≤ ·) ∧
    (∀ x, x ∈ WandbLogger.metricNames records ↔
      ∃ t ∈ records, x ∈ t.map Prod.fst) ∧
    WandbLogger.cellOf row m = none := by
  refine ⟨?_, List.sorted_insertionSort _ _, ?_, cellOf_eq_none row m hm⟩
  · have h1 := ((hperm.map (fun t => t.map Prod.fst)).flatten).dedup
    have h3 : (WandbLogger.metricNames records).Perm (WandbLogger.metricNames records') :=
      ((List.perm_insertionSort _ _).trans h1).trans
        (List.perm_insertionSort _ _).symm
    exact List.eq_of_perm_of_sorted h3
      (List.sorted_insertionSort _ _) (List.sorted_insertionSort _ _)
  · intro x
    unfold WandbLogger.metricNames
    rw [(List.perm_insertionSort _ _).mem_iff, List.mem_dedup, List.mem_flatten]
    constructor
    · rintro ⟨l, hl, hx⟩
      obtain ⟨t, ht, rfl⟩ := List.mem_map.mp hl
      exact ⟨t, ht, hx⟩
    · rintro ⟨t, ht, hx⟩
      exact ⟨t.map Prod.fst, List.mem_map.mpr ⟨t, ht, rfl⟩, hx⟩

/-- Witness for `detail_columns_sorted_union`: two permuted record lists
with metrics "a" and "b", and a record lacking metric "b". -/
theorem detail_columns_sorted_union_witness :
    (([[("b", 1)], [("a", 2)]] : List (List (String × ℚ))).Perm
      [[("a", 2)], [("b", 1)]] ∧
     (∀ p ∈ ([("a", 2)] : List (String × ℚ)), p.1 ≠ "b")) ∧
    (WandbLogger.metricNames [[("b", 1)], [("a", 2)]] =
      WandbLogger.metricNames [[("a", 2)], [("b", 1)]] ∧
    (WandbLogger.metricNames [[("b", 1)], [("a", 2)]]).Sorted (· ≤ ·) ∧
    (∀ x, x ∈ WandbLogger.metricNames [[("b", 1)], [("a", 2)]] ↔
      ∃ t ∈ ([[("b", 1)], [("a", 2)]] : List (List (String × ℚ))),
        x ∈ t.map Prod.fst) ∧
    WandbLogger.cellOf [("a", 2)] "b" = none) :=
  ⟨⟨List.Perm.swap _ _ _, by decide⟩,
    detail_columns_sorted_union [[("b", 1)], [("a", 2)]] [[("a", 2)], [("b", 1)]]
      [("a", 2)] "b" (List.Perm.swap _ _ _) (by decide)⟩
